import Mathlib

/-!
Shallow embedding of the warm-up code generator of BetaGoRobot/go_utils and of
the reflecting identity probe, together with theorems settling the frozen
claims about them.

Go strings are modelled as `List Char` (the scanned sources are ASCII, where
byte-wise and rune-wise operations agree).  Go maps are modelled as
association lists in insertion order; Go map iteration order is unspecified,
and every property proved below about data drawn from a map is independent of
that order.  `log.Fatalf` (process abort) is modelled as `Except.error`.
The filesystem, `go/parser` and `go/token` are external: a walked file is
modelled by its base name, its paths relative to the scan root, and the
parse result (`none` for a parse error).
-/

namespace GoUtils

/-- Go `string`, modelled as a list of characters. -/
abbrev GoStr := List Char

/-- One step of `strings.ReplaceAll(s, string(r), "")`: removing every
occurrence of a single rune from a string. -/
def replaceAllChar : GoStr → Char → GoStr
  | [], _ => []
  | c :: rest, r => if c = r then replaceAllChar rest r else c :: replaceAllChar rest r

/-- `strings.Split(s, sep)` for a one-character separator.  The result is
always non-empty, as in Go. -/
def goSplit (sep : Char) : GoStr → List GoStr
  | [] => [[]]
  | c :: rest =>
    if c = sep then [] :: goSplit sep rest
    else
      match goSplit sep rest with
      | [] => [[c]]
      | g :: gs => (c :: g) :: gs

/-- `strings.HasPrefix(s, pre)` (arguments: the candidate leading part first,
then the string). -/
def goStartsWith : GoStr → GoStr → Bool
  | [], _ => true
  | _ :: _, [] => false
  | p :: ps, c :: cs => p = c && goStartsWith ps cs

/-- `strings.TrimPrefix(s, pre)`: drop the leading part when present,
otherwise return the string unchanged. -/
def goTrimStart (pre s : GoStr) : GoStr :=
  if goStartsWith pre s then s.drop pre.length else s

/-- `unicode.IsSpace` restricted to the Latin-1 range that `strings.Split`
of a `go.mod` file can produce. -/
def isGoSpace (c : Char) : Bool :=
  c.toNat = 32 || c.toNat = 9 || c.toNat = 10 || c.toNat = 11 || c.toNat = 12 ||
  c.toNat = 13 || c.toNat = 133 || c.toNat = 160

/-- `strings.TrimSpace`. -/
def goTrimSpace (s : GoStr) : GoStr :=
  ((s.dropWhile isGoSpace).reverse.dropWhile isGoSpace).reverse

/-- `strings.Trim(s, cutset)` for a one-character cutset (used with `"`). -/
def goTrimChar (cut : Char) (s : GoStr) : GoStr :=
  ((s.dropWhile (fun c => c = cut)).reverse.dropWhile (fun c => c = cut)).reverse

/-- `filepath.Ext` applied to a base name: the suffix starting at the final
dot, empty when there is no dot.  (The path-separator cutoff of the real
`filepath.Ext` is irrelevant for base names, which contain no separator.) -/
def goExt (s : GoStr) : GoStr :=
  if '.' ∈ s then ((s.reverse.takeWhile (fun c => c ≠ '.')) ++ ['.']).reverse else []

/-- `strings.Compare` / the `<`-`==` comparators of both generator variants:
three-way lexicographic comparison.  Go compares bytes; on the ASCII strings
involved this agrees with comparison of `Char.toNat`. -/
def goCompare : GoStr → GoStr → Ordering
  | [], [] => .eq
  | [], _ :: _ => .lt
  | _ :: _, [] => .gt
  | a :: as, b :: bs =>
    if a.toNat < b.toNat then .lt
    else if b.toNat < a.toNat then .gt
    else goCompare as bs

/-- The non-strict string order used by both variants' sort comparators. -/
def goStrLe (a b : GoStr) : Prop := goCompare a b ≠ Ordering.gt

instance : DecidableRel goStrLe := fun a b => by unfold goStrLe; infer_instance

/-- `fmt.Sprintf("%s:%d", relPath, line)`: the provenance comment. -/
def mkComment (relPath : GoStr) (line : Nat) : GoStr :=
  relPath ++ ':' :: Nat.toDigits 10 line

/-- A Go `map[string]string`, as an association list in insertion order. -/
abbrev GoMap := List (GoStr × GoStr)

def mapLookup (m : GoMap) (k : GoStr) : Option GoStr :=
  match m with
  | [] => none
  | (k', v) :: rest => if k' = k then some v else mapLookup rest k

/-- `m[k] = v` on a Go map: overwrite an existing key, else add the entry. -/
def mapInsert (m : GoMap) (k v : GoStr) : GoMap :=
  match m with
  | [] => [(k, v)]
  | (k', v') :: rest => if k' = k then (k', v) :: rest else (k', v') :: mapInsert rest k v

/-- `for k, v := range src { dst[k] = v }`. -/
def mapMerge (dst src : GoMap) : GoMap :=
  src.foldl (fun m kv => mapInsert m kv.1 kv.2) dst

/-! ## The `go/ast` fragment the generator inspects -/

/-- The expression shapes `containsGetCurrentFunc` distinguishes: an
identifier, a selector `x.sel`, a call (whose arguments the generator never
inspects), and every other `ast.Expr`. -/
inductive AExpr where
  | ident (name : GoStr)
  | selector (x : AExpr) (sel : GoStr)
  | callE (funE : AExpr)
  | otherE
deriving DecidableEq

/-- A receiver's type expression: `T`, `*x`, or any other shape. -/
inductive RecvTypeExpr where
  | identT (name : GoStr)
  | starT (x : RecvTypeExpr)
  | otherT
deriving DecidableEq

/-- One node visited by `ast.Inspect` inside a function body: either a
`*ast.CallExpr` (recorded with its `Fun` expression and the line of its
`Lparen`), or any other node. -/
inductive BodyNode where
  | callNode (funE : AExpr) (line : Nat)
  | otherNode
deriving DecidableEq

/-- An `*ast.FuncDecl`: name, optional receiver type expression, whether
`Type.TypeParams != nil`, and the inspected body (`none` when `Body == nil`).
The body is the list of nodes `ast.Inspect` visits, in traversal order. -/
structure FuncDecl where
  name : GoStr
  recv : Option RecvTypeExpr
  hasTypeParams : Bool
  body : Option (List BodyNode)
deriving DecidableEq

/-- A top-level declaration: a `*ast.FuncDecl` or anything else. -/
inductive Decl where
  | funcD (fd : FuncDecl)
  | otherD
deriving DecidableEq

/-- One entry of `ast.File.Imports`: optional explicit alias and the quoted
path literal exactly as it appears in the AST. -/
structure ImportSpec where
  name : Option GoStr
  pathValue : GoStr
deriving DecidableEq

/-- The part of a parsed `ast.File` the generator reads. -/
structure ParsedFile where
  pkgName : GoStr
  imports : List ImportSpec
  decls : List Decl
deriving DecidableEq

/-! ## Shared record types (both variants declare identical structs) -/

structure RawCall where
  Expr : GoStr
  Comment : GoStr
deriving DecidableEq

structure WarmupCall where
  Expr : GoStr
  Comments : List GoStr
deriving DecidableEq

structure ImportLine where
  Alias : GoStr
  Path : GoStr
deriving DecidableEq

/-- The data handed to the fixed `text/template`; the rendered file text is a
pure function of this record, so two runs emit identical files exactly when
they build identical `TemplateData`. -/
structure TemplateData where
  Imports : List ImportLine
  WarmupCalls : List WarmupCall
deriving DecidableEq

/-- The canonical module path of the tracked probe. -/
def probePath : GoStr := "github.com/BetaGoRobot/go_utils/reflecting".data

/-- The selector name of the tracked probe. -/
def probeName : GoStr := "GetCurrentFunc".data

/-- `containsGetCurrentFunc` (identical in both variant files): the callee is
matched either directly as `alias.GetCurrentFunc` or, in call-expression
wrapped form, as a call whose `Fun` is such a selector; the alias must
resolve through the file's import map to exactly `probePath`. -/
def containsGetCurrentFunc (expr : AExpr) (importMap : GoMap) : Bool :=
  match expr with
  | .selector x sel =>
    match x with
    | .ident name =>
      if sel = probeName then
        match mapLookup importMap name with
        | some path => path = probePath
        | none => false
      else false
    | _ => false
  | .callE f =>
    match f with
    | .selector x sel =>
      match x with
      | .ident name =>
        if sel = probeName then
          match mapLookup importMap name with
          | some path => path = probePath
          | none => false
        else false
      | _ => false
    | _ => false
  | _ => false

/-- The per-file import map: explicitly named specs map by the given alias,
unnamed specs by the last `/`-segment of the (quote-trimmed) path. -/
def buildImportMap (imports : List ImportSpec) : GoMap :=
  imports.foldl
    (fun m imp =>
      let importPath := goTrimChar '"' imp.pathValue
      match imp.name with
      | some n => mapInsert m n importPath
      | none => mapInsert m ((goSplit '/' importPath).getLastD []) importPath)
    []

/-- `deduplicateCalls` inner map update: append this comment to the entry for
`e`, creating the entry when absent (Go `callMap[c.Expr] = append(...)`). -/
def insertComment (m : List (GoStr × List GoStr)) (e c : GoStr) : List (GoStr × List GoStr) :=
  match m with
  | [] => [(e, [c])]
  | (k, cs) :: rest =>
    if k = e then (k, cs ++ [c]) :: rest else (k, cs) :: insertComment rest e c

/-- The `callMap` of `deduplicateCalls`, in first-insertion order (Go map
iteration order is unspecified; all proved properties are order-free). -/
def buildCallMap (raws : List RawCall) : List (GoStr × List GoStr) :=
  raws.foldl (fun m r => insertComment m r.Expr r.Comment) []

/-- `deduplicateCalls` (identical in both variant files). -/
def deduplicateCalls (raws : List RawCall) : List WarmupCall :=
  (buildCallMap raws).map (fun kv => ⟨kv.1, kv.2⟩)

/-- Import-line order of both variants' `slices.SortFunc` comparators. -/
def importLe (a b : ImportLine) : Prop := goStrLe a.Path b.Path

/-- Warm-up-call order of both variants' `slices.SortFunc` comparators. -/
def callLe (a b : WarmupCall) : Prop := goStrLe a.Expr b.Expr

instance : DecidableRel importLe := fun a b => by unfold importLe; infer_instance

instance : DecidableRel callLe := fun a b => by unfold callLe; infer_instance

/-- The import sort of `generateWarmupCode`.  Go's `slices.SortFunc` is an
unstable sort whose order on comparator-ties is unspecified; it is modelled
by a concrete sort consistent with the comparator (insertion sort, which
resolves ties by input order). -/
def sortImports (l : List ImportLine) : List ImportLine := List.insertionSort importLe l

/-- The call sort of `generateWarmupCode`, likewise. -/
def sortCalls (l : List WarmupCall) : List WarmupCall := List.insertionSort callLe l

/-- `getGoModModuleName` line loop: first line starting with `"module "`
yields the trimmed remainder, otherwise `log.Fatal` (modelled as `error`). -/
def findModuleLine (lines : List GoStr) : Except GoStr GoStr :=
  match lines with
  | [] => .error "module name not found in go.mod".data
  | line :: rest =>
    if goStartsWith "module ".data line then
      .ok (goTrimSpace (goTrimStart "module ".data line))
    else findModuleLine rest

/-- `getGoModModuleName` (identical in both variant files): the argument is
the content of `go.mod` at the scan root, `none` when `os.ReadFile` fails;
`log.Fatalf` is modelled as `Except.error` (whole-process abort). -/
def getGoModModuleName (content : Option GoStr) : Except GoStr GoStr :=
  match content with
  | none => .error "failed to read go.mod".data
  | some data => findModuleLine (goSplit '\n' data)

end GoUtils

namespace GoUtils

/-! ## Variant A: `src/cmd/tools/warmup/main.go` -/

namespace WarmupA

/-- `buildFunctionCall` of `cmd/tools/warmup/main.go`: always
package-qualified; the receiver switch recognises `*ast.Ident` and
`*ast.StarExpr` over an identifier, leaving `structName` empty (and the
pointer flag unset) for every other receiver shape. -/
def buildFunctionCall (pkgName : GoStr) (funcDecl : FuncDecl) : GoStr :=
  match funcDecl.recv with
  | none => pkgName ++ '.' :: funcDecl.name
  | some recvType =>
    let sp : GoStr × Bool :=
      match recvType with
      | .identT n => (n, false)
      | .starT (.identT n) => (n, true)
      | .starT _ => ([], false)
      | .otherT => ([], false)
    if sp.2 then
      '(' :: '*' :: (pkgName ++ '.' :: sp.1) ++ ')' :: '.' :: funcDecl.name
    else
      pkgName ++ '.' :: sp.1 ++ '.' :: funcDecl.name

/-- The `ast.Inspect` pass of `analyzeFile` over one declaration's body:
every visited `*ast.CallExpr` whose `Fun` matches the probe yields one
`rawCall`.  Variant A has no guard on type parameters. -/
def collectDeclCalls (pkgName relPath : GoStr) (importMap : GoMap) (fd : FuncDecl) :
    List RawCall :=
  match fd.body with
  | none => []
  | some body =>
    body.filterMap
      (fun n =>
        match n with
        | .callNode f line =>
          if containsGetCurrentFunc f importMap then
            some ⟨buildFunctionCall pkgName fd, mkComment relPath line⟩
          else none
        | .otherNode => none)

/-- One iteration of `analyzeFile`'s declaration loop: non-function
declarations (and, inside `collectDeclCalls`, bodyless functions) contribute
nothing; results are appended in order. -/
def declStep (pkgName relPath : GoStr) (importMap : GoMap) (acc : List RawCall) :
    Decl → List RawCall
  | .funcD fd => acc ++ collectDeclCalls pkgName relPath importMap fd
  | .otherD => acc

/-- The declaration loop of `analyzeFile`. -/
def analyzeDecls (pkgName relPath : GoStr) (importMap : GoMap) (decls : List Decl) :
    List RawCall :=
  decls.foldl (declStep pkgName relPath importMap) []

/-- `analyzeFile`: a parse error or a `package main` file contributes nothing
(the maps are still empty at that return).  `relPath` and `relImportPath`
stand for the two `filepath.Rel` results. -/
def analyzeFile (parsed : Option ParsedFile) (relPath relImportPath : GoStr) :
    List RawCall × GoMap × GoMap :=
  match parsed with
  | none => ([], [], [])
  | some node =>
    if node.pkgName = "main".data then ([], [], [])
    else
      let importMap := buildImportMap node.imports
      (analyzeDecls node.pkgName relPath importMap node.decls,
       mapInsert [] node.pkgName relImportPath,
       importMap)

/-- One file reached by `filepath.Walk`, described by the data the callback
uses: its base name, the two root-relative paths, and its parse result. -/
structure WalkFile where
  base : GoStr
  relPath : GoStr
  relDir : GoStr
  parsed : Option ParsedFile
deriving DecidableEq

/-- The walk callback's skip condition: not a `.go` file, or base name equal
to `"warmup_gen.go"`.  (Walk errors, also skipped, are outside the model:
the file list contains the files delivered without error.) -/
def walkSkips (base : GoStr) : Bool :=
  !(goExt base = ".go".data : Bool) || (base = "warmup_gen.go".data : Bool)

/-- `scanGoFiles`: fold the walk over the visited files, appending raw calls
and merging both maps. -/
def scanGoFiles (files : List WalkFile) : List RawCall × GoMap × GoMap :=
  files.foldl
    (fun acc f =>
      if walkSkips f.base then acc
      else
        let res := analyzeFile f.parsed f.relPath f.relDir
        (acc.1 ++ res.1, mapMerge acc.2.1 res.2.1, mapMerge acc.2.2 res.2.2))
    ([], [], [])

/-- `buildImportLines`: fatal when the manifest cannot be resolved, else
prefix every directory-relative path with the module prefix. -/
def buildImportLines (importPaths : GoMap) (goModContent : Option GoStr) :
    Except GoStr (List ImportLine) :=
  match getGoModModuleName goModContent with
  | .error e => .error e
  | .ok modulePrefix =>
    .ok (importPaths.map (fun kv => ⟨kv.1, modulePrefix ++ '/' :: kv.2⟩))

/-- `generateWarmupCode` of variant A: sort, render, write — unconditionally.
Rendering, `format.Source` and the `goimports` run are abstracted into the
returned template data; the write target is `dir/warmup.gen.go`. -/
def generateWarmupCode (imports : List ImportLine) (calls : List WarmupCall) :
    TemplateData :=
  ⟨sortImports imports, sortCalls calls⟩

/-- The base name of the file variant A writes. -/
def outputFileBase : GoStr := "warmup.gen.go".data

/-- `generate` of variant A: `.ok td` means a file rendered from `td` was
written at the scan root; `.error` models the fatal manifest abort. -/
def generate (goModContent : Option GoStr) (files : List WalkFile) :
    Except GoStr TemplateData :=
  let scanned := scanGoFiles files
  match buildImportLines scanned.2.1 goModContent with
  | .error e => .error e
  | .ok imports => .ok (generateWarmupCode imports (deduplicateCalls scanned.1))

end WarmupA

/-! ## Variant B: the generator embedded beside `common_utils/map_slice_trans.go` -/

namespace WarmupB

/-- `buildFunctionCall` of variant B: never package-qualified — a free
function yields its bare name, methods yield `T.M` or `(*T).M`. -/
def buildFunctionCall (currentPkg : GoStr) (funcDecl : FuncDecl) : GoStr :=
  match funcDecl.recv with
  | none => funcDecl.name
  | some recvType =>
    let sp : GoStr × Bool :=
      match recvType with
      | .identT n => (n, false)
      | .starT (.identT n) => (n, true)
      | .starT _ => ([], false)
      | .otherT => ([], false)
    if sp.2 then
      '(' :: '*' :: sp.1 ++ ')' :: '.' :: funcDecl.name
    else
      sp.1 ++ '.' :: funcDecl.name

/-- The `ast.Inspect` pass of `scanPackages` over one declaration's body
(same as variant A's but using variant B's reference builder). -/
def collectDeclCalls (pkgName relPath : GoStr) (importMap : GoMap) (fd : FuncDecl) :
    List RawCall :=
  match fd.body with
  | none => []
  | some body =>
    body.filterMap
      (fun n =>
        match n with
        | .callNode f line =>
          if containsGetCurrentFunc f importMap then
            some ⟨buildFunctionCall pkgName fd, mkComment relPath line⟩
          else none
        | .otherNode => none)

/-- One iteration of `scanPackages`' declaration loop: in addition to
variant A's guards, a declaration with `Type.TypeParams != nil` is
skipped. -/
def declStep (pkgName relPath : GoStr) (importMap : GoMap) (acc : List RawCall) :
    Decl → List RawCall
  | .funcD fd =>
    if fd.hasTypeParams then acc
    else acc ++ collectDeclCalls pkgName relPath importMap fd
  | .otherD => acc

/-- The declaration loop of `scanPackages`. -/
def analyzeDecls (pkgName relPath : GoStr) (importMap : GoMap) (decls : List Decl) :
    List RawCall :=
  decls.foldl (declStep pkgName relPath importMap) []

/-- `packageData` of variant B. -/
structure PackageData where
  PackageName : GoStr
  Dir : GoStr
  RawCalls : List RawCall
  ImportPaths : GoMap
deriving DecidableEq

/-- `buildImportLines` of variant B (module prefix already resolved). -/
def buildImportLines (importPaths : GoMap) (modulePrefix : GoStr) : List ImportLine :=
  importPaths.map (fun kv => ⟨kv.1, modulePrefix ++ '/' :: kv.2⟩)

/-- `generateWarmupCode` of variant B: sort both lists, then return without
writing when the call list is empty; otherwise render and write
`pkg.Dir/warmup.gen.go` (`some td` models that write). -/
def generateWarmupCode (imports : List ImportLine) (calls : List WarmupCall) :
    Option TemplateData :=
  let sortedImports := sortImports imports
  let sortedCalls := sortCalls calls
  if sortedCalls.isEmpty then none else some ⟨sortedImports, sortedCalls⟩

/-- `generate` of variant B: resolve the manifest once (fatal on failure),
then emit one output per package with a non-empty raw-call list, pairing
each written file's directory with its rendered template data. -/
def generate (goModContent : Option GoStr) (pkgs : List PackageData) :
    Except GoStr (List (GoStr × TemplateData)) :=
  match getGoModModuleName goModContent with
  | .error e => .error e
  | .ok modulePrefix =>
    .ok (pkgs.foldl
      (fun outs pkg =>
        if pkg.RawCalls.isEmpty then outs
        else
          match generateWarmupCode (buildImportLines pkg.ImportPaths modulePrefix)
              (deduplicateCalls pkg.RawCalls) with
          | none => outs
          | some td => outs ++ [(pkg.Dir, td)])
      [])

/-- The walk skip condition of variant B's `scanPackages`: not a `.go` file,
or base name equal to `"warmup.gen.go"` — the name it writes. -/
def walkSkips (base : GoStr) : Bool :=
  !(goExt base = ".go".data : Bool) || (base = "warmup.gen.go".data : Bool)

end WarmupB

/-! ## `common_utils/strings.go` and the reflecting probe (`src/unnamed/part_000`) -/

namespace commonutils

/-- `RemoveFromStringRune`: successively `strings.ReplaceAll` each listed
rune with the empty string. -/
def RemoveFromStringRune (s : GoStr) (charsToRemove : List Char) : GoStr :=
  charsToRemove.foldl replaceAllChar s

end commonutils

namespace reflecting

/-- `getLastPathElement`: last `/`-segment (`strings.Split` never returns an
empty list, so the `len(parts) > 0` branch is always taken). -/
def getLastPathElement (s : GoStr) : GoStr :=
  (goSplit '/' s).getLastD s

/-- `legalize`: remove `*`, `(` and `)`. -/
def legalize (s : GoStr) : GoStr :=
  commonutils.RemoveFromStringRune s ['*', '(', ')']

/-- The process-wide `pcCache` (`sync.Map` keyed by program counter),
sequentialized: the single-threaded state passed through each operation. -/
abbrev Cache := List (Nat × GoStr)

def cacheLookup (cache : Cache) (pc : Nat) : Option GoStr :=
  match cache with
  | [] => none
  | (k, v) :: rest => if k = pc then some v else cacheLookup rest pc

def cacheStore (cache : Cache) (pc : Nat) (v : GoStr) : Cache :=
  match cache with
  | [] => [(pc, v)]
  | (k, v') :: rest => if k = pc then (k, v) :: rest else (k, v') :: cacheStore rest pc v

/-- `GetCurrentFunc`.  `caller` models `runtime.Caller(1)`: `none` when not
`ok`, otherwise the pc paired with `runtime.FuncForPC(pc).Name()` (`none`
when `FuncForPC` returns nil).  The cache is consulted before the nil check,
as in the source. -/
def GetCurrentFunc (cache : Cache) (caller : Option (Nat × Option GoStr)) :
    GoStr × Cache :=
  match caller with
  | none => ([], cache)
  | some (pc, fnName) =>
    match cacheLookup cache pc with
    | some cached => (cached, cache)
    | none =>
      match fnName with
      | none => ([], cache)
      | some rawName =>
        let funcName := legalize (getLastPathElement rawName)
        (funcName, cacheStore cache pc funcName)

/-- `GetCurrentFuncDepth`: no `ok` check; `rawName` models
`runtime.FuncForPC(pc).Name()`.  `LoadOrStore` after a failed `Load` stores
and returns the freshly legalized name. -/
def GetCurrentFuncDepth (cache : Cache) (pc : Nat) (rawName : GoStr) :
    GoStr × Cache :=
  match cacheLookup cache pc with
  | some name => (name, cache)
  | none =>
    let name := legalize (getLastPathElement rawName)
    (name, cacheStore cache pc name)

/-- `GetFunctionName`: `fn` models `runtime.FuncForPC` on the reflected
pointer — `none` when nil (return `""`), otherwise entry pc and name. -/
def GetFunctionName (cache : Cache) (fn : Option (Nat × GoStr)) :
    GoStr × Cache :=
  match fn with
  | none => ([], cache)
  | some (pc, rawName) =>
    match cacheLookup cache pc with
    | some name => (name, cache)
    | none =>
      let name := legalize (getLastPathElement rawName)
      (name, cacheStore cache pc name)

/-- No character of the string is one of the runes `legalize` removes. -/
def legalName (s : GoStr) : Prop := ∀ c ∈ s, c ≠ '*' ∧ c ≠ '(' ∧ c ≠ ')'

/-- Every name stored in the cache is legal. -/
def cacheLegal (cache : Cache) : Prop := ∀ kv ∈ cache, legalName kv.2

end reflecting

/-- First comment list stored under a key of the `callMap` (proof-side
observer used to state what deduplication keeps for each callable). -/
def entryComments (m : List (GoStr × List GoStr)) (k : GoStr) : List GoStr :=
  match m with
  | [] => []
  | (k', cs) :: rest => if k' = k then cs else entryComments rest k

/-- Proof-side observer: true for declarations that are not
type-parameterised function declarations. -/
def keepsNonGeneric : Decl → Bool
  | .funcD fd => !fd.hasTypeParams
  | .otherD => true

/-- Proof-side observer: the same declaration with the type-parameter flag
cleared. -/
def clearTypeParams : Decl → Decl
  | .funcD fd => .funcD ⟨fd.name, fd.recv, false, fd.body⟩
  | .otherD => .otherD

/-! ## Lemmas about the three-way string comparison -/

theorem char_eq_of_toNat_eq {a b : Char} (h : a.toNat = b.toNat) : a = b :=
  Char.eq_of_val_eq (UInt32.ext h)

theorem goCompare_eq_iff : ∀ a b : GoStr, goCompare a b = Ordering.eq ↔ a = b := by
  intro a
  induction a with
  | nil => intro b; cases b <;> simp [goCompare]
  | cons x xs ih =>
    intro b
    cases b with
    | nil => simp [goCompare]
    | cons y ys =>
      simp only [goCompare]
      by_cases h1 : x.toNat < y.toNat
      · simp only [if_pos h1]
        constructor
        · intro h; cases h
        · intro h
          injection h with hx hy
          subst hx
          omega
      · simp only [if_neg h1]
        by_cases h2 : y.toNat < x.toNat
        · simp only [if_pos h2]
          constructor
          · intro h; cases h
          · intro h
            injection h with hx hy
            subst hx
            omega
        · simp only [if_neg h2]
          have hx : x = y := char_eq_of_toNat_eq (by omega)
          subst hx
          rw [ih ys]
          constructor
          · intro h; rw [h]
          · intro h; injection h

theorem goCompare_swap : ∀ a b : GoStr, (goCompare a b).swap = goCompare b a := by
  intro a
  induction a with
  | nil => intro b; cases b <;> simp [goCompare, Ordering.swap]
  | cons x xs ih =>
    intro b
    cases b with
    | nil => simp [goCompare, Ordering.swap]
    | cons y ys =>
      simp only [goCompare]
      by_cases h1 : x.toNat < y.toNat
      · have h2 : ¬ y.toNat < x.toNat := by omega
        simp [if_pos h1, if_neg h2, Ordering.swap]
      · by_cases h2 : y.toNat < x.toNat
        · simp [if_neg h1, if_pos h2, Ordering.swap]
        · simp [if_neg h1, if_neg h2, ih ys]

theorem goCompare_lt_trans :
    ∀ a b c : GoStr, goCompare a b = Ordering.lt → goCompare b c = Ordering.lt →
      goCompare a c = Ordering.lt := by
  intro a
  induction a with
  | nil =>
    intro b c hab hbc
    cases b with
    | nil => cases hab
    | cons y ys =>
      cases c with
      | nil => cases hbc
      | cons z zs => simp [goCompare]
  | cons x xs ih =>
    intro b c hab hbc
    cases b with
    | nil => cases hab
    | cons y ys =>
      cases c with
      | nil => cases hbc
      | cons z zs =>
        simp only [goCompare] at hab hbc ⊢
        by_cases h1 : x.toNat < y.toNat
        · by_cases h2 : y.toNat < z.toNat
          · have : x.toNat < z.toNat := by omega
            simp [this]
          · by_cases h3 : z.toNat < y.toNat
            · simp [if_neg h2, if_pos h3] at hbc
            · have : x.toNat < z.toNat := by omega
              simp [this]
        · by_cases h1' : y.toNat < x.toNat
          · simp [if_neg h1, if_pos h1'] at hab
          · have hxy : x.toNat = y.toNat := by omega
            simp only [if_neg h1, if_neg h1'] at hab
            by_cases h2 : y.toNat < z.toNat
            · have : x.toNat < z.toNat := by omega
              simp [this]
            · by_cases h3 : z.toNat < y.toNat
              · simp [if_neg h2, if_pos h3] at hbc
              · simp only [if_neg h2, if_neg h3] at hbc
                have hn1 : ¬ x.toNat < z.toNat := by omega
                have hn2 : ¬ z.toNat < x.toNat := by omega
                simp [if_neg hn1, if_neg hn2, ih ys zs hab hbc]

theorem goStrLe_total : ∀ a b : GoStr, goStrLe a b ∨ goStrLe b a := by
  intro a b
  unfold goStrLe
  by_cases h : goCompare a b = Ordering.gt
  · right
    intro hba
    have := goCompare_swap a b
    rw [h, hba] at this
    cases this
  · left; exact h

theorem goStrLe_lt_or_eq {a b : GoStr} (h : goStrLe a b) :
    goCompare a b = Ordering.lt ∨ a = b := by
  unfold goStrLe at h
  cases hc : goCompare a b with
  | lt => left; rfl
  | eq => right; exact (goCompare_eq_iff a b).mp hc
  | gt => exact absurd hc h

theorem goStrLe_trans : ∀ a b c : GoStr, goStrLe a b → goStrLe b c → goStrLe a c := by
  intro a b c hab hbc
  rcases goStrLe_lt_or_eq hab with h1 | h1
  · rcases goStrLe_lt_or_eq hbc with h2 | h2
    · unfold goStrLe
      rw [goCompare_lt_trans a b c h1 h2]
      intro h; cases h
    · subst h2
      unfold goStrLe
      rw [h1]
      intro h; cases h
  · subst h1; exact hbc

theorem goStrLe_antisymm : ∀ a b : GoStr, goStrLe a b → goStrLe b a → a = b := by
  intro a b hab hba
  rcases goStrLe_lt_or_eq hab with h1 | h1
  · exfalso
    have := goCompare_swap a b
    rw [h1] at this
    exact hba this.symm
  · exact h1

instance : IsTotal ImportLine importLe := ⟨fun a b => goStrLe_total a.Path b.Path⟩

instance : IsTrans ImportLine importLe :=
  ⟨fun a b c => goStrLe_trans a.Path b.Path c.Path⟩

instance : IsTotal WarmupCall callLe := ⟨fun a b => goStrLe_total a.Expr b.Expr⟩

instance : IsTrans WarmupCall callLe :=
  ⟨fun a b c => goStrLe_trans a.Expr b.Expr c.Expr⟩

/-- A sorted permutation of a list with pairwise-distinct sort keys is
unique: two such lists are equal. -/
theorem perm_eq_of_sorted_key {α : Type} (key : α → GoStr) {l₁ l₂ : List α}
    (hp : l₁.Perm l₂)
    (hs₁ : l₁.Pairwise (fun x y => goStrLe (key x) (key y)))
    (hs₂ : l₂.Pairwise (fun x y => goStrLe (key x) (key y)))
    (hk₁ : l₁.Pairwise (fun x y => key x ≠ key y)) : l₁ = l₂ := by
  have hk₂ : l₂.Pairwise (fun x y => key x ≠ key y) :=
    (List.Perm.pairwise_iff (fun h => Ne.symm h) hp).mp hk₁
  haveI : IsAntisymm α (fun x y => goCompare (key x) (key y) = Ordering.lt) := by
    constructor
    intro x y hxy hyx
    exfalso
    have := goCompare_swap (key x) (key y)
    rw [hxy] at this
    rw [hyx] at this
    cases this
  apply List.eq_of_perm_of_sorted (r := fun x y => goCompare (key x) (key y) = Ordering.lt) hp
  · refine (hs₁.and hk₁).imp ?_
    intro x y hxy
    rcases goStrLe_lt_or_eq hxy.1 with h | h
    · exact h
    · exact absurd h hxy.2
  · refine (hs₂.and hk₂).imp ?_
    intro x y hxy
    rcases goStrLe_lt_or_eq hxy.1 with h | h
    · exact h
    · exact absurd h hxy.2

/-- The import sort is a function of the collection as a multiset once the
fully-qualified paths are pairwise distinct. -/
theorem sortImports_eq_of_perm {l₁ l₂ : List ImportLine} (hp : l₁.Perm l₂)
    (hk : l₁.Pairwise (fun x y => x.Path ≠ y.Path)) :
    sortImports l₁ = sortImports l₂ := by
  apply perm_eq_of_sorted_key ImportLine.Path
  · exact ((List.perm_insertionSort importLe l₁).trans hp).trans
      (List.perm_insertionSort importLe l₂).symm
  · exact List.sorted_insertionSort importLe l₁
  · exact List.sorted_insertionSort importLe l₂
  · exact (List.Perm.pairwise_iff (fun h => Ne.symm h)
      (List.perm_insertionSort importLe l₁)).mpr hk

/-- The call sort, likewise, once the callable references are pairwise
distinct. -/
theorem sortCalls_eq_of_perm {l₁ l₂ : List WarmupCall} (hp : l₁.Perm l₂)
    (hk : l₁.Pairwise (fun x y => x.Expr ≠ y.Expr)) :
    sortCalls l₁ = sortCalls l₂ := by
  apply perm_eq_of_sorted_key WarmupCall.Expr
  · exact ((List.perm_insertionSort callLe l₁).trans hp).trans
      (List.perm_insertionSort callLe l₂).symm
  · exact List.sorted_insertionSort callLe l₁
  · exact List.sorted_insertionSort callLe l₂
  · exact (List.Perm.pairwise_iff (fun h => Ne.symm h)
      (List.perm_insertionSort callLe l₁)).mpr hk

/-! ## Lemmas about `deduplicateCalls` -/

theorem insertComment_fst (m : List (GoStr × List GoStr)) (e c : GoStr) :
    (insertComment m e c).map Prod.fst =
      if e ∈ m.map Prod.fst then m.map Prod.fst else m.map Prod.fst ++ [e] := by
  induction m with
  | nil => simp [insertComment]
  | cons kv rest ih =>
    obtain ⟨k, cs⟩ := kv
    by_cases hk : k = e
    · subst hk
      simp [insertComment]
    · simp only [insertComment, if_neg hk, List.map_cons, ih, List.mem_cons]
      by_cases hmem : e ∈ rest.map Prod.fst
      · simp [hmem, hk, Ne.symm hk]
      · simp [hmem, hk, Ne.symm hk]

theorem insertComment_fst_nodup {m : List (GoStr × List GoStr)} (e c : GoStr)
    (h : (m.map Prod.fst).Nodup) : ((insertComment m e c).map Prod.fst).Nodup := by
  rw [insertComment_fst]
  by_cases hmem : e ∈ m.map Prod.fst
  · simpa [hmem] using h
  · simp only [if_neg hmem]
    rw [List.nodup_append]
    refine ⟨h, List.nodup_singleton e, ?_⟩
    intro a ha hae
    rw [List.mem_singleton] at hae
    subst hae
    exact hmem ha

theorem insertComment_flatten (m : List (GoStr × List GoStr)) (e c : GoStr) :
    ((insertComment m e c).map Prod.snd).flatten.Perm
      (c :: (m.map Prod.snd).flatten) := by
  induction m with
  | nil => simp [insertComment]
  | cons kv rest ih =>
    obtain ⟨k, cs⟩ := kv
    by_cases hk : k = e
    · subst hk
      rw [show insertComment ((k, cs) :: rest) k c = (k, cs ++ [c]) :: rest from by
        simp [insertComment]]
      simp only [List.map_cons, List.flatten_cons]
      have h1 : (cs ++ [c]) ++ (rest.map Prod.snd).flatten
          = cs ++ (c :: (rest.map Prod.snd).flatten) := by simp
      rw [h1]
      exact List.perm_middle
    · simp only [insertComment, if_neg hk, List.map_cons, List.flatten_cons]
      have h1 : (cs ++ ((insertComment rest e c).map Prod.snd).flatten).Perm
          (cs ++ (c :: (rest.map Prod.snd).flatten)) := List.Perm.append_left cs ih
      exact h1.trans List.perm_middle

theorem entryComments_insert (m : List (GoStr × List GoStr)) (e c k : GoStr) :
    entryComments (insertComment m e c) k =
      if k = e then entryComments m k ++ [c] else entryComments m k := by
  induction m with
  | nil =>
    by_cases hk : k = e
    · subst hk; simp [insertComment, entryComments]
    · simp [insertComment, entryComments, Ne.symm hk, hk]
  | cons kv rest ih =>
    obtain ⟨k', cs⟩ := kv
    by_cases hke : k' = e
    · subst hke
      by_cases hkk : k' = k
      · subst hkk
        simp [insertComment, entryComments]
      · have hkn : ¬ k = k' := fun h => hkk h.symm
        simp [insertComment, entryComments, hkk, hkn]
    · simp only [insertComment, if_neg hke]
      by_cases hkk : k' = k
      · subst hkk
        simp [entryComments, hke]
      · simp [entryComments, hkk, ih]

theorem entryComments_mem {m : List (GoStr × List GoStr)}
    (hnd : (m.map Prod.fst).Nodup) {k : GoStr} {cs : List GoStr}
    (hm : (k, cs) ∈ m) : entryComments m k = cs := by
  induction m with
  | nil => cases hm
  | cons kv rest ih =>
    obtain ⟨k', cs'⟩ := kv
    simp only [List.map_cons, List.nodup_cons] at hnd
    rcases List.mem_cons.mp hm with h | h
    · injection h with h1 h2
      subst h1; subst h2
      simp [entryComments]
    · by_cases hkk : k' = k
      · exfalso
        subst hkk
        exact hnd.1 (List.mem_map.mpr ⟨(k', cs), h, rfl⟩)
      · simp only [entryComments, if_neg hkk]
        exact ih hnd.2 h

theorem buildCallMap_fold_fst_nodup :
    ∀ (raws : List RawCall) (m : List (GoStr × List GoStr)),
      (m.map Prod.fst).Nodup →
      ((raws.foldl (fun m r => insertComment m r.Expr r.Comment) m).map Prod.fst).Nodup := by
  intro raws
  induction raws with
  | nil => intro m h; exact h
  | cons r rest ih =>
    intro m h
    exact ih _ (insertComment_fst_nodup r.Expr r.Comment h)

theorem buildCallMap_fst_nodup (raws : List RawCall) :
    ((buildCallMap raws).map Prod.fst).Nodup :=
  buildCallMap_fold_fst_nodup raws [] (by simp)

theorem buildCallMap_fold_flatten :
    ∀ (raws : List RawCall) (m : List (GoStr × List GoStr)),
      ((raws.foldl (fun m r => insertComment m r.Expr r.Comment) m).map Prod.snd).flatten.Perm
        ((m.map Prod.snd).flatten ++ raws.map RawCall.Comment) := by
  intro raws
  induction raws with
  | nil => intro m; simp
  | cons r rest ih =>
    intro m
    simp only [List.foldl_cons, List.map_cons]
    have h1 := ih (insertComment m r.Expr r.Comment)
    have h2 : (((insertComment m r.Expr r.Comment).map Prod.snd).flatten
        ++ rest.map RawCall.Comment).Perm
        ((r.Comment :: (m.map Prod.snd).flatten) ++ rest.map RawCall.Comment) :=
      List.Perm.append_right _ (insertComment_flatten m r.Expr r.Comment)
    have h3 : (r.Comment :: ((m.map Prod.snd).flatten ++ rest.map RawCall.Comment)).Perm
        ((m.map Prod.snd).flatten ++ r.Comment :: rest.map RawCall.Comment) :=
      List.perm_middle.symm
    exact (h1.trans h2).trans h3

theorem buildCallMap_flatten (raws : List RawCall) :
    ((buildCallMap raws).map Prod.snd).flatten.Perm (raws.map RawCall.Comment) := by
  have := buildCallMap_fold_flatten raws []
  simpa [buildCallMap] using this

theorem buildCallMap_fold_entry :
    ∀ (raws : List RawCall) (m : List (GoStr × List GoStr)) (k : GoStr),
      entryComments (raws.foldl (fun m r => insertComment m r.Expr r.Comment) m) k =
        entryComments m k ++ (raws.filter (fun r => r.Expr = k)).map RawCall.Comment := by
  intro raws
  induction raws with
  | nil => intro m k; simp
  | cons r rest ih =>
    intro m k
    simp only [List.foldl_cons, ih, entryComments_insert]
    by_cases hk : k = r.Expr
    · subst hk
      simp [List.filter_cons]
    · have : ¬ (r.Expr = k) := fun h => hk h.symm
      simp [List.filter_cons, this, hk]

theorem buildCallMap_entry (raws : List RawCall) (k : GoStr) :
    entryComments (buildCallMap raws) k =
      (raws.filter (fun r => r.Expr = k)).map RawCall.Comment := by
  have := buildCallMap_fold_entry raws [] k
  simpa [buildCallMap, entryComments] using this

theorem deduplicateCalls_expr_nodup (raws : List RawCall) :
    ((deduplicateCalls raws).map WarmupCall.Expr).Nodup := by
  have h := buildCallMap_fst_nodup raws
  have heq : (deduplicateCalls raws).map WarmupCall.Expr = (buildCallMap raws).map Prod.fst := by
    simp [deduplicateCalls, List.map_map]
  rw [heq]
  exact h

theorem deduplicateCalls_comments (raws : List RawCall) {w : WarmupCall}
    (hw : w ∈ deduplicateCalls raws) :
    w.Comments = (raws.filter (fun r => r.Expr = w.Expr)).map RawCall.Comment := by
  rcases List.mem_map.mp hw with ⟨kv, hkv, hw'⟩
  have h1 : w.Expr = kv.1 := by rw [← hw']
  have h2 : w.Comments = kv.2 := by rw [← hw']
  rw [h2, h1]
  rw [← buildCallMap_entry raws kv.1]
  exact (entryComments_mem (buildCallMap_fst_nodup raws) (by exact hkv)).symm

/-! ## Lemmas about the probe's string cleaning and cache -/

theorem mem_replaceAllChar (s : GoStr) (r x : Char) :
    x ∈ replaceAllChar s r ↔ x ∈ s ∧ x ≠ r := by
  induction s with
  | nil => simp [replaceAllChar]
  | cons c rest ih =>
    by_cases hc : c = r
    · subst hc
      rw [show replaceAllChar (c :: rest) c = replaceAllChar rest c from by
        simp [replaceAllChar]]
      rw [ih]
      simp only [List.mem_cons]
      constructor
      · intro h; exact ⟨Or.inr h.1, h.2⟩
      · rintro ⟨h | h, hx⟩
        · exact absurd h hx
        · exact ⟨h, hx⟩
    · simp only [replaceAllChar, if_neg hc, List.mem_cons, ih]
      constructor
      · rintro (h | h)
        · subst h; exact ⟨Or.inl rfl, hc⟩
        · exact ⟨Or.inr h.1, h.2⟩
      · rintro ⟨h | h, hx⟩
        · subst h; exact Or.inl rfl
        · exact Or.inr ⟨h, hx⟩

theorem mem_RemoveFromStringRune :
    ∀ (cs : List Char) (s : GoStr) (x : Char),
      x ∈ commonutils.RemoveFromStringRune s cs ↔ x ∈ s ∧ x ∉ cs := by
  intro cs
  induction cs with
  | nil => intro s x; simp [commonutils.RemoveFromStringRune]
  | cons c rest ih =>
    intro s x
    simp only [commonutils.RemoveFromStringRune, List.foldl_cons] at *
    rw [ih (replaceAllChar s c) x, mem_replaceAllChar, List.mem_cons]
    constructor
    · rintro ⟨⟨hs, hxc⟩, hrest⟩
      refine ⟨hs, ?_⟩
      rintro (h | h)
      · exact hxc h
      · exact hrest h
    · rintro ⟨hs, hn⟩
      exact ⟨⟨hs, fun h => hn (Or.inl h)⟩, fun h => hn (Or.inr h)⟩

theorem legalName_legalize (s : GoStr) : reflecting.legalName (reflecting.legalize s) := by
  intro c hc
  rw [reflecting.legalize, mem_RemoveFromStringRune] at hc
  have hn := hc.2
  refine ⟨?_, ?_, ?_⟩ <;> intro h <;> subst h <;> exact hn (by simp)

theorem cacheLookup_legal {cache : reflecting.Cache} (h : reflecting.cacheLegal cache)
    {pc : Nat} {v : GoStr} (hl : reflecting.cacheLookup cache pc = some v) :
    reflecting.legalName v := by
  induction cache with
  | nil => cases hl
  | cons kv rest ih =>
    rw [reflecting.cacheLookup] at hl
    by_cases hk : kv.1 = pc
    · rw [show kv = (kv.1, kv.2) from rfl] at hl
      simp only [if_pos hk] at hl
      injection hl with hv
      subst hv
      exact h kv (List.mem_cons_self kv rest)
    · rw [show kv = (kv.1, kv.2) from rfl] at hl
      simp only [if_neg hk] at hl
      exact ih (fun x hx => h x (List.mem_cons_of_mem kv hx)) hl

theorem cacheStore_legal {cache : reflecting.Cache} (h : reflecting.cacheLegal cache)
    {pc : Nat} {v : GoStr} (hv : reflecting.legalName v) :
    reflecting.cacheLegal (reflecting.cacheStore cache pc v) := by
  induction cache with
  | nil =>
    intro kv hkv
    rw [reflecting.cacheStore, List.mem_singleton] at hkv
    subst hkv
    exact hv
  | cons kv' rest ih =>
    intro kv hkv
    rw [reflecting.cacheStore] at hkv
    rw [show kv' = (kv'.1, kv'.2) from rfl] at hkv
    by_cases hk : kv'.1 = pc
    · simp only [if_pos hk] at hkv
      rcases List.mem_cons.mp hkv with h1 | h1
      · subst h1; exact hv
      · exact h kv (List.mem_cons_of_mem kv' h1)
    · simp only [if_neg hk] at hkv
      rcases List.mem_cons.mp hkv with h1 | h1
      · subst h1; exact h kv' (List.mem_cons_self kv' rest)
      · exact ih (fun x hx => h x (List.mem_cons_of_mem kv' hx)) kv h1

/-! ## Claim theorems -/

/-- C1 — the self-exclusion claim is right about the intended behaviour, but
variant A's code is wrong: its walk skips files whose base name is
`"warmup_gen.go"` while its emitter writes `"warmup.gen.go"`, so the name
tested by the skip condition is NOT the name of the written output, and a
previously generated `warmup.gen.go` is scanned on a repeated run and does
contribute raw call sites (evaluated here at such a failing input). -/
theorem c1_self_exclusion_failing_input :
    WarmupA.walkSkips WarmupA.outputFileBase = false
    ∧ WarmupA.walkSkips "warmup_gen.go".data = true
    ∧ WarmupA.outputFileBase = "warmup.gen.go".data
    ∧ (WarmupA.scanGoFiles
        [⟨"warmup.gen.go".data, "warmup.gen.go".data, ".".data,
          some ⟨"pkg".data,
            [⟨some "p".data, "\"github.com/BetaGoRobot/go_utils/reflecting\"".data⟩],
            [.funcD ⟨"F".data, none, false,
              some [.callNode (.selector (.ident "p".data) "GetCurrentFunc".data) 10]⟩]⟩⟩]).1
      = [⟨"pkg.F".data, "warmup.gen.go:10".data⟩] := by
  refine ⟨by decide, by decide, by decide, by decide⟩

/-- C2 counterexample — in variant B a free function `F` of package `P`
yields the bare reference `"F"`, not the package-qualified `"P.F"` the claim
asserts for both variants. -/
theorem c2_counterexample :
    WarmupB.buildFunctionCall "P".data ⟨"F".data, none, false, none⟩ = "F".data
    ∧ "F".data ≠ "P.F".data := by
  refine ⟨by decide, by decide⟩

/-- C2 amended — variant A always package-qualifies (`P.F`, `P.T.M`,
`(*P.T).M`); variant B never does (`F`, `T.M`, `(*T).M`); in both variants
the pointer marker is preserved, so a pointer-receiver method's reference is
always distinguishable from the value-receiver form on the same type. -/
theorem c2_callable_reference_forms (p t m : GoStr) (tp : Bool)
    (b : Option (List BodyNode)) :
    (WarmupA.buildFunctionCall p ⟨m, none, tp, b⟩ = p ++ '.' :: m)
    ∧ (WarmupA.buildFunctionCall p ⟨m, some (.identT t), tp, b⟩
        = p ++ '.' :: t ++ '.' :: m)
    ∧ (WarmupA.buildFunctionCall p ⟨m, some (.starT (.identT t)), tp, b⟩
        = '(' :: '*' :: (p ++ '.' :: t) ++ ')' :: '.' :: m)
    ∧ (WarmupB.buildFunctionCall p ⟨m, none, tp, b⟩ = m)
    ∧ (WarmupB.buildFunctionCall p ⟨m, some (.identT t), tp, b⟩ = t ++ '.' :: m)
    ∧ (WarmupB.buildFunctionCall p ⟨m, some (.starT (.identT t)), tp, b⟩
        = '(' :: '*' :: t ++ ')' :: '.' :: m)
    ∧ WarmupA.buildFunctionCall p ⟨m, some (.starT (.identT t)), tp, b⟩
        ≠ WarmupA.buildFunctionCall p ⟨m, some (.identT t), tp, b⟩
    ∧ WarmupB.buildFunctionCall p ⟨m, some (.starT (.identT t)), tp, b⟩
        ≠ WarmupB.buildFunctionCall p ⟨m, some (.identT t), tp, b⟩ := by
  refine ⟨rfl, rfl, rfl, rfl, rfl, rfl, ?_, ?_⟩
  · intro h
    have := congrArg List.length h
    simp [WarmupA.buildFunctionCall] at this
    omega
  · intro h
    have := congrArg List.length h
    simp [WarmupB.buildFunctionCall] at this
    omega

/-- C4 counterexample — variant A writes its output unconditionally: a run
over an empty tree (no raw call sites at all, so an empty deduplicated
warm-up set) still ends in a successful write of a rendered file with zero
warm-up calls, contradicting "an output file is written only if the
deduplicated set is non-empty" as a statement about every run. -/
theorem c4_counterexample :
    WarmupA.generate (some "module m".data) [] =
      .ok (⟨[], []⟩ : TemplateData) := rfl

/-- C6 counterexample — provenance comments are NOT sorted before emission:
two raw sites of the same callable discovered in the order
`b.go:2`, `a.go:1` reach the template with their comment list still in that
discovery order, which is not sorted. -/
theorem c6_counterexample :
    WarmupA.generateWarmupCode [] (deduplicateCalls
        [⟨"p.F".data, "b.go:2".data⟩, ⟨"p.F".data, "a.go:1".data⟩])
      = ⟨[], [⟨"p.F".data, ["b.go:2".data, "a.go:1".data]⟩]⟩
    ∧ ¬ List.Pairwise goStrLe ["b.go:2".data, "a.go:1".data] := by
  refine ⟨rfl, ?_⟩
  intro h
  rcases List.pairwise_cons.mp h with ⟨h1, _⟩
  exact absurd (h1 _ (List.mem_singleton_self _)) (by decide)

/-- C7 counterexample — when two import lines share a fully-qualified path
(possible: a `foo` and a `foo_test` package clause in the same directory
map to the same directory-relative path), the comparator cannot order them,
and the sorted import list handed to the template differs between two
collection orders of the same set, so the rendered output is not determined
by the set alone. -/
theorem c7_counterexample :
    List.Perm
      [(⟨"foo".data, "m/a".data⟩ : ImportLine), ⟨"foo_test".data, "m/a".data⟩]
      [⟨"foo_test".data, "m/a".data⟩, ⟨"foo".data, "m/a".data⟩]
    ∧ sortImports [⟨"foo".data, "m/a".data⟩, ⟨"foo_test".data, "m/a".data⟩]
      ≠ sortImports [⟨"foo_test".data, "m/a".data⟩, ⟨"foo".data, "m/a".data⟩] := by
  refine ⟨List.Perm.swap _ _ _ |>.symm, by decide⟩

/-- C3 — matching soundness: the detector recognises a callee exactly when
it is the selector `a.GetCurrentFunc` (directly, or wrapped one level inside
a call expression) with `a` resolving through the file's import map to
exactly the probe's canonical path; and a body node yields a `RawCallSite`
exactly when it is a call expression whose callee the detector recognises. -/
theorem c3_matching_soundness :
    (∀ (e : AExpr) (im : GoMap),
      containsGetCurrentFunc e im = true ↔
        ∃ a : GoStr,
          (e = .selector (.ident a) probeName
            ∨ e = .callE (.selector (.ident a) probeName))
          ∧ mapLookup im a = some probePath)
    ∧ (∀ (pkgName relPath : GoStr) (im : GoMap) (fd : FuncDecl) (rc : RawCall),
        rc ∈ WarmupA.collectDeclCalls pkgName relPath im fd ↔
          ∃ body, fd.body = some body ∧
            ∃ f line, BodyNode.callNode f line ∈ body
              ∧ containsGetCurrentFunc f im = true
              ∧ rc = ⟨WarmupA.buildFunctionCall pkgName fd, mkComment relPath line⟩) := by
  constructor
  · intro e im
    constructor
    · intro h
      match e with
      | .ident n => simp [containsGetCurrentFunc] at h
      | .otherE => simp [containsGetCurrentFunc] at h
      | .selector x sel =>
        match x with
        | .ident n =>
          simp only [containsGetCurrentFunc] at h
          by_cases hsel : sel = probeName
          · subst hsel
            cases hlk : mapLookup im n with
            | none => rw [if_pos rfl, hlk] at h; cases h
            | some path =>
              rw [if_pos rfl, hlk] at h
              have hp : path = probePath := by
                by_cases hpp : path = probePath
                · exact hpp
                · rw [decide_eq_true_eq] at h; exact absurd h hpp
              subst hp
              exact ⟨n, Or.inl rfl, hlk⟩
          · rw [if_neg hsel] at h; cases h
        | .selector _ _ => simp [containsGetCurrentFunc] at h
        | .callE _ => simp [containsGetCurrentFunc] at h
        | .otherE => simp [containsGetCurrentFunc] at h
      | .callE f =>
        match f with
        | .ident n => simp [containsGetCurrentFunc] at h
        | .otherE => simp [containsGetCurrentFunc] at h
        | .callE _ => simp [containsGetCurrentFunc] at h
        | .selector x sel =>
          match x with
          | .ident n =>
            simp only [containsGetCurrentFunc] at h
            by_cases hsel : sel = probeName
            · subst hsel
              cases hlk : mapLookup im n with
              | none => rw [if_pos rfl, hlk] at h; cases h
              | some path =>
                rw [if_pos rfl, hlk] at h
                have hp : path = probePath := by
                  by_cases hpp : path = probePath
                  · exact hpp
                  · rw [decide_eq_true_eq] at h; exact absurd h hpp
                subst hp
                exact ⟨n, Or.inr rfl, hlk⟩
            · rw [if_neg hsel] at h; cases h
          | .selector _ _ => simp [containsGetCurrentFunc] at h
          | .callE _ => simp [containsGetCurrentFunc] at h
          | .otherE => simp [containsGetCurrentFunc] at h
    · rintro ⟨a, h | h, hlk⟩ <;> subst h <;>
        simp [containsGetCurrentFunc, hlk]
  · intro pkgName relPath im fd rc
    cases hb : fd.body with
    | none =>
      simp [WarmupA.collectDeclCalls, hb]
    | some body =>
      simp only [WarmupA.collectDeclCalls, hb, List.mem_filterMap]
      constructor
      · rintro ⟨n, hn, hfn⟩
        match n with
        | .otherNode => cases hfn
        | .callNode f line =>
          simp only at hfn
          by_cases hc : containsGetCurrentFunc f im
          · rw [if_pos hc] at hfn
            injection hfn with hrc
            exact ⟨body, rfl, f, line, hn, hc, hrc.symm⟩
          · rw [if_neg hc] at hfn; cases hfn
      · rintro ⟨body', hbody', f, line, hmem, hc, hrc⟩
        injection hbody' with hbe
        subst hbe
        refine ⟨.callNode f line, hmem, ?_⟩
        simp only [if_pos hc]
        rw [hrc]

/-- C5 — deduplication keys uniquely by callable reference and neither loses
nor invents provenance: the deduplicated list never repeats a reference, and
a comment string occurs in the flattened emitted comment lists exactly when
it occurs among the input raw call sites' comments. -/
theorem c5_dedup_preserves_provenance (raws : List RawCall) :
    ((deduplicateCalls raws).map WarmupCall.Expr).Nodup
    ∧ ∀ s : GoStr,
        (s ∈ ((deduplicateCalls raws).map WarmupCall.Comments).flatten ↔
          s ∈ raws.map RawCall.Comment) := by
  refine ⟨deduplicateCalls_expr_nodup raws, ?_⟩
  intro s
  have heq : (deduplicateCalls raws).map WarmupCall.Comments
      = (buildCallMap raws).map Prod.snd := by
    simp [deduplicateCalls, List.map_map]
  rw [heq]
  exact (buildCallMap_flatten raws).mem_iff

/-- C6 amended — the comment list of every warm-up call reaching the
template is exactly the input comments of the raw sites with that callable
reference, in discovery order; no sorting of comments takes place (only the
call list itself is sorted, by callable reference). -/
theorem c6_comments_in_discovery_order (raws : List RawCall)
    (imports : List ImportLine) (w : WarmupCall)
    (hw : w ∈ (WarmupA.generateWarmupCode imports (deduplicateCalls raws)).WarmupCalls) :
    w.Comments = (raws.filter (fun r => r.Expr = w.Expr)).map RawCall.Comment := by
  have hmem : w ∈ deduplicateCalls raws := by
    have hperm := List.perm_insertionSort callLe (deduplicateCalls raws)
    exact hperm.mem_iff.mp hw
  exact deduplicateCalls_comments raws hmem

/-- C6 amended, witness. -/
theorem c6_comments_in_discovery_order_witness :
    (⟨"p.F".data, ["b.go:2".data, "a.go:1".data]⟩ : WarmupCall).Comments =
      (([⟨"p.F".data, "b.go:2".data⟩, ⟨"p.F".data, "a.go:1".data⟩] : List RawCall).filter
        (fun r => r.Expr = (⟨"p.F".data, ["b.go:2".data, "a.go:1".data]⟩ : WarmupCall).Expr)).map
        RawCall.Comment :=
  c6_comments_in_discovery_order
    [⟨"p.F".data, "b.go:2".data⟩, ⟨"p.F".data, "a.go:1".data⟩] []
    ⟨"p.F".data, ["b.go:2".data, "a.go:1".data]⟩ (by decide)

/-- C4 amended — in the per-package variant an output file is written for a
package directory only when its (deduplicated) warm-up call set is
non-empty; the single-output variant writes unconditionally (see the
counterexample). -/
theorem c4_empty_result_suppression (goMod : Option GoStr)
    (pkgs : List WarmupB.PackageData) (outs : List (GoStr × TemplateData))
    (h : WarmupB.generate goMod pkgs = .ok outs) :
    ∀ e ∈ outs, e.2.WarmupCalls ≠ [] := by
  rw [WarmupB.generate] at h
  cases hm : getGoModModuleName goMod with
  | error e => rw [hm] at h; cases h
  | ok modulePrefix =>
    rw [hm] at h
    injection h with h
    subst h
    suffices hgen : ∀ (acc : List (GoStr × TemplateData)),
        (∀ e ∈ acc, e.2.WarmupCalls ≠ []) →
        ∀ e ∈ pkgs.foldl
          (fun outs pkg =>
            if pkg.RawCalls.isEmpty then outs
            else
              match WarmupB.generateWarmupCode
                  (WarmupB.buildImportLines pkg.ImportPaths modulePrefix)
                  (deduplicateCalls pkg.RawCalls) with
              | none => outs
              | some td => outs ++ [(pkg.Dir, td)]) acc,
          e.2.WarmupCalls ≠ [] by
      exact hgen [] (by intro e he; cases he)
    induction pkgs with
    | nil => intro acc hacc; exact hacc
    | cons pkg rest ih =>
      intro acc hacc
      simp only [List.foldl_cons]
      by_cases hemp : pkg.RawCalls.isEmpty
      · rw [if_pos hemp]; exact ih acc hacc
      · rw [if_neg hemp]
        cases hg : WarmupB.generateWarmupCode
            (WarmupB.buildImportLines pkg.ImportPaths modulePrefix)
            (deduplicateCalls pkg.RawCalls) with
        | none => exact ih acc hacc
        | some td =>
          apply ih
          intro e he
          rcases List.mem_append.mp he with h1 | h1
          · exact hacc e h1
          · rw [List.mem_singleton] at h1
            subst h1
            rw [WarmupB.generateWarmupCode] at hg
            by_cases hsc : (sortCalls (deduplicateCalls pkg.RawCalls)).isEmpty
            · rw [if_pos hsc] at hg; cases hg
            · rw [if_neg hsc] at hg
              injection hg with hg
              subst hg
              intro hnil
              apply hsc
              rw [List.isEmpty_iff]
              exact hnil

/-- C4 amended, witness. -/
theorem c4_empty_result_suppression_witness :
    ((⟨"d".data, ⟨[], [⟨"F".data, ["a.go:1".data]⟩]⟩⟩ : GoStr × TemplateData)).2.WarmupCalls
      ≠ [] :=
  c4_empty_result_suppression (some "module m".data)
    [⟨"pkg".data, "d".data, [⟨"F".data, "a.go:1".data⟩], []⟩]
    [(⟨"d".data, ⟨[], [⟨"F".data, ["a.go:1".data]⟩]⟩⟩ : GoStr × TemplateData)] rfl
    (⟨"d".data, ⟨[], [⟨"F".data, ["a.go:1".data]⟩]⟩⟩ : GoStr × TemplateData)
    (List.mem_singleton_self _)

/-- C7 amended — both variants sort imports by fully-qualified path and
calls by callable reference immediately before rendering, and this makes
the template data a function of the collected sets alone PROVIDED the
paths of the imports are pairwise distinct (deduplicated call lists always
have pairwise-distinct references, last conjunct); with duplicate paths the
tie order, and hence the rendered output, can depend on collection order
(see the counterexample). -/
theorem c7_sorted_deterministic_emission
    (imps₁ imps₂ : List ImportLine) (cs₁ cs₂ : List WarmupCall)
    (hpi : imps₁.Perm imps₂) (hpc : cs₁.Perm cs₂)
    (hki : imps₁.Pairwise (fun x y => x.Path ≠ y.Path))
    (hkc : cs₁.Pairwise (fun x y => x.Expr ≠ y.Expr)) :
    WarmupA.generateWarmupCode imps₁ cs₁ = WarmupA.generateWarmupCode imps₂ cs₂
    ∧ WarmupB.generateWarmupCode imps₁ cs₁ = WarmupB.generateWarmupCode imps₂ cs₂
    ∧ List.Sorted importLe (WarmupA.generateWarmupCode imps₁ cs₁).Imports
    ∧ List.Sorted callLe (WarmupA.generateWarmupCode imps₁ cs₁).WarmupCalls
    ∧ ∀ raws : List RawCall,
        (deduplicateCalls raws).Pairwise (fun x y => x.Expr ≠ y.Expr) := by
  have hsi : sortImports imps₁ = sortImports imps₂ := sortImports_eq_of_perm hpi hki
  have hsc : sortCalls cs₁ = sortCalls cs₂ := sortCalls_eq_of_perm hpc hkc
  refine ⟨?_, ?_, ?_, ?_, ?_⟩
  · rw [WarmupA.generateWarmupCode, WarmupA.generateWarmupCode, hsi, hsc]
  · rw [WarmupB.generateWarmupCode, WarmupB.generateWarmupCode, hsi, hsc]
  · exact List.sorted_insertionSort importLe imps₁
  · exact List.sorted_insertionSort callLe cs₁
  · intro raws
    have h := deduplicateCalls_expr_nodup raws
    rw [List.Nodup, List.pairwise_map] at h
    exact h

/-- C7 amended, witness. -/
theorem c7_sorted_deterministic_emission_witness :
    WarmupA.generateWarmupCode
        [⟨"x".data, "m/a".data⟩, ⟨"y".data, "m/b".data⟩]
        [⟨"p.F".data, ["a.go:1".data]⟩]
      = WarmupA.generateWarmupCode
        [⟨"y".data, "m/b".data⟩, ⟨"x".data, "m/a".data⟩]
        [⟨"p.F".data, ["a.go:1".data]⟩] :=
  (c7_sorted_deterministic_emission
    [⟨"x".data, "m/a".data⟩, ⟨"y".data, "m/b".data⟩]
    [⟨"y".data, "m/b".data⟩, ⟨"x".data, "m/a".data⟩]
    [⟨"p.F".data, ["a.go:1".data]⟩] [⟨"p.F".data, ["a.go:1".data]⟩]
    (by decide) (by decide) (by decide) (by decide)).1

/-- C8 — generic declarations are skipped in exactly one variant: variant
B's declaration loop behaves as if every type-parameterised function were
removed up front, and in particular a tracked call inside a generic body
yields no raw call site there; variant A's loop is insensitive to the
type-parameter flag and scans such bodies like any other. -/
theorem c8_generic_skip_one_variant :
    (∀ (p rp : GoStr) (im : GoMap) (decls : List Decl),
      WarmupB.analyzeDecls p rp im decls
        = WarmupB.analyzeDecls p rp im (decls.filter keepsNonGeneric))
    ∧ (∀ (p rp : GoStr) (im : GoMap) (fd : FuncDecl), fd.hasTypeParams = true →
        WarmupB.analyzeDecls p rp im [.funcD fd] = [])
    ∧ (∀ (p rp : GoStr) (im : GoMap) (decls : List Decl),
        WarmupA.analyzeDecls p rp im (decls.map clearTypeParams)
          = WarmupA.analyzeDecls p rp im decls) := by
  refine ⟨?_, ?_, ?_⟩
  · intro p rp im decls
    rw [WarmupB.analyzeDecls, WarmupB.analyzeDecls]
    suffices hfold : ∀ (ds : List Decl) (acc : List RawCall),
        ds.foldl (WarmupB.declStep p rp im) acc
          = (ds.filter keepsNonGeneric).foldl (WarmupB.declStep p rp im) acc by
      exact hfold decls []
    intro ds
    induction ds with
    | nil => intro acc; rfl
    | cons d rest ih =>
      intro acc
      match d with
      | .otherD =>
        have h1 : (Decl.otherD :: rest).filter keepsNonGeneric
            = Decl.otherD :: rest.filter keepsNonGeneric := by
          simp [List.filter_cons, keepsNonGeneric]
        rw [h1, List.foldl_cons, List.foldl_cons]
        exact ih _
      | .funcD fd =>
        cases htp : fd.hasTypeParams with
        | true =>
          have h1 : (Decl.funcD fd :: rest).filter keepsNonGeneric
              = rest.filter keepsNonGeneric := by
            simp [List.filter_cons, keepsNonGeneric, htp]
          have h2 : WarmupB.declStep p rp im acc (Decl.funcD fd) = acc := by
            simp [WarmupB.declStep, htp]
          rw [h1, List.foldl_cons, h2]
          exact ih _
        | false =>
          have h1 : (Decl.funcD fd :: rest).filter keepsNonGeneric
              = Decl.funcD fd :: rest.filter keepsNonGeneric := by
            simp [List.filter_cons, keepsNonGeneric, htp]
          rw [h1, List.foldl_cons, List.foldl_cons]
          exact ih _
  · intro p rp im fd htp
    rw [WarmupB.analyzeDecls]
    simp [WarmupB.declStep, htp]
  · intro p rp im decls
    rw [WarmupA.analyzeDecls, WarmupA.analyzeDecls]
    suffices hfold : ∀ (ds : List Decl) (acc : List RawCall),
        (ds.map clearTypeParams).foldl (WarmupA.declStep p rp im) acc
          = ds.foldl (WarmupA.declStep p rp im) acc by
      exact hfold decls []
    intro ds
    induction ds with
    | nil => intro acc; rfl
    | cons d rest ih =>
      intro acc
      match d with
      | .otherD =>
        rw [List.map_cons, List.foldl_cons, List.foldl_cons]
        exact ih _
      | .funcD fd =>
        rw [List.map_cons, List.foldl_cons, List.foldl_cons]
        have hstep : WarmupA.declStep p rp im acc (clearTypeParams (.funcD fd))
            = WarmupA.declStep p rp im acc (.funcD fd) := rfl
        rw [hstep]
        exact ih _

/-- C8, witness. -/
theorem c8_generic_skip_one_variant_witness :
    WarmupB.analyzeDecls "p".data "a.go".data
      [("r".data, "github.com/BetaGoRobot/go_utils/reflecting".data)]
      [.funcD ⟨"G".data, none, true,
        some [.callNode (.selector (.ident "r".data) "GetCurrentFunc".data) 7]⟩] = [] :=
  c8_generic_skip_one_variant.2.1 "p".data "a.go".data
    [("r".data, "github.com/BetaGoRobot/go_utils/reflecting".data)]
    ⟨"G".data, none, true,
      some [.callNode (.selector (.ident "r".data) "GetCurrentFunc".data) 7]⟩ rfl

/-- C9 — the manifest is the one fatal setup input: an unreadable `go.mod`
is a run-level error, a readable one yields the trimmed remainder of the
first `module `-prefixed line or a run-level error when no such line
exists; variant A's `generate` turns an unreadable manifest into a failure
of the whole run; by contrast a file that fails to parse, or that declares
`package main`, contributes nothing while the scan of the remaining files
proceeds unchanged. -/
theorem c9_manifest_fatal_rest_skipped :
    (getGoModModuleName none = .error "failed to read go.mod".data)
    ∧ (∀ data : GoStr,
        getGoModModuleName (some data) =
          match (goSplit '\n' data).find? (fun l => goStartsWith "module ".data l) with
          | some line => .ok (goTrimSpace (goTrimStart "module ".data line))
          | none => .error "module name not found in go.mod".data)
    ∧ (∀ files : List WarmupA.WalkFile,
        WarmupA.generate none files = .error "failed to read go.mod".data)
    ∧ (∀ (fs₁ fs₂ : List WarmupA.WalkFile) (f : WarmupA.WalkFile),
        (f.parsed = none ∨ ∃ pf, f.parsed = some pf ∧ pf.pkgName = "main".data) →
        WarmupA.scanGoFiles (fs₁ ++ f :: fs₂) = WarmupA.scanGoFiles (fs₁ ++ fs₂)) := by
  refine ⟨rfl, ?_, ?_, ?_⟩
  · intro data
    rw [getGoModModuleName]
    suffices hfind : ∀ lines : List GoStr,
        findModuleLine lines =
          match lines.find? (fun l => goStartsWith "module ".data l) with
          | some line => .ok (goTrimSpace (goTrimStart "module ".data line))
          | none => .error "module name not found in go.mod".data by
      exact hfind _
    intro lines
    induction lines with
    | nil => rfl
    | cons line rest ih =>
      rw [findModuleLine, List.find?]
      by_cases hp : goStartsWith "module ".data line
      · rw [if_pos hp, hp]
      · have hp' : goStartsWith "module ".data line = false := by
          cases h : goStartsWith "module ".data line
          · rfl
          · exact absurd h hp
        rw [if_neg (by rw [hp']; exact Bool.false_ne_true), hp']
        exact ih
  · intro files
    rfl
  · intro fs₁ fs₂ f hf
    rw [WarmupA.scanGoFiles, WarmupA.scanGoFiles, List.foldl_append, List.foldl_cons,
      List.foldl_append]
    have hstep : ∀ acc : List RawCall × GoMap × GoMap,
        (if WarmupA.walkSkips f.base then acc
         else
           let res := WarmupA.analyzeFile f.parsed f.relPath f.relDir
           (acc.1 ++ res.1, mapMerge acc.2.1 res.2.1, mapMerge acc.2.2 res.2.2)) = acc := by
      intro acc
      by_cases hs : WarmupA.walkSkips f.base
      · rw [if_pos hs]
      · rw [if_neg hs]
        have hres : WarmupA.analyzeFile f.parsed f.relPath f.relDir = ([], [], []) := by
          rcases hf with h | ⟨pf, hpf, hmain⟩
          · rw [h, WarmupA.analyzeFile]
          · rw [hpf, WarmupA.analyzeFile, if_pos hmain]
        rw [hres]
        show (acc.1 ++ [], mapMerge acc.2.1 [], mapMerge acc.2.2 []) = acc
        rw [List.append_nil]
        rfl
    rw [hstep]

/-- C9, witness. -/
theorem c9_manifest_fatal_rest_skipped_witness :
    WarmupA.scanGoFiles [⟨"bad.go".data, "bad.go".data, ".".data, none⟩]
      = WarmupA.scanGoFiles [] :=
  c9_manifest_fatal_rest_skipped.2.2.2 [] []
    ⟨"bad.go".data, "bad.go".data, ".".data, none⟩ (Or.inl rfl)

/-- C10 — every name the probe stores in its cache passes through
`legalize`, and `RemoveFromStringRune` removes every listed rune, so a
legal cache stays legal across `GetCurrentFunc`, `GetCurrentFuncDepth` and
`GetFunctionName`, and every returned string (in particular every non-empty
one) contains none of `*`, `(`, `)`. -/
theorem c10_legalized_name_invariant (cache : reflecting.Cache)
    (h : reflecting.cacheLegal cache) :
    (∀ (cs : List Char) (s : GoStr) (c : Char), c ∈ cs →
      c ∉ commonutils.RemoveFromStringRune s cs)
    ∧ (∀ caller,
        reflecting.cacheLegal (reflecting.GetCurrentFunc cache caller).2
        ∧ reflecting.legalName (reflecting.GetCurrentFunc cache caller).1)
    ∧ (∀ (pc : Nat) (rawName : GoStr),
        reflecting.cacheLegal (reflecting.GetCurrentFuncDepth cache pc rawName).2
        ∧ reflecting.legalName (reflecting.GetCurrentFuncDepth cache pc rawName).1)
    ∧ (∀ fn,
        reflecting.cacheLegal (reflecting.GetFunctionName cache fn).2
        ∧ reflecting.legalName (reflecting.GetFunctionName cache fn).1) := by
  refine ⟨?_, ?_, ?_, ?_⟩
  · intro cs s c hc hmem
    rw [mem_RemoveFromStringRune] at hmem
    exact hmem.2 hc
  · intro caller
    match caller with
    | none => exact ⟨h, by intro c hc; cases hc⟩
    | some (pc, fnName) =>
      have hred : reflecting.GetCurrentFunc cache (some (pc, fnName)) =
          match reflecting.cacheLookup cache pc with
          | some cached => (cached, cache)
          | none =>
            match fnName with
            | none => ([], cache)
            | some rawName =>
              (reflecting.legalize (reflecting.getLastPathElement rawName),
               reflecting.cacheStore cache pc
                 (reflecting.legalize (reflecting.getLastPathElement rawName))) := rfl
      rw [hred]
      cases hl : reflecting.cacheLookup cache pc with
      | some cached => exact ⟨h, cacheLookup_legal h hl⟩
      | none =>
        match fnName with
        | none => exact ⟨h, by intro c hc; cases hc⟩
        | some rawName =>
          exact ⟨cacheStore_legal h (legalName_legalize _), legalName_legalize _⟩
  · intro pc rawName
    rw [reflecting.GetCurrentFuncDepth]
    cases hl : reflecting.cacheLookup cache pc with
    | some name => exact ⟨h, cacheLookup_legal h hl⟩
    | none => exact ⟨cacheStore_legal h (legalName_legalize _), legalName_legalize _⟩
  · intro fn
    match fn with
    | none => exact ⟨h, by intro c hc; cases hc⟩
    | some (pc, rawName) =>
      have hred : reflecting.GetFunctionName cache (some (pc, rawName)) =
          match reflecting.cacheLookup cache pc with
          | some name => (name, cache)
          | none =>
            (reflecting.legalize (reflecting.getLastPathElement rawName),
             reflecting.cacheStore cache pc
               (reflecting.legalize (reflecting.getLastPathElement rawName))) := rfl
      rw [hred]
      cases hl : reflecting.cacheLookup cache pc with
      | some name => exact ⟨h, cacheLookup_legal h hl⟩
      | none => exact ⟨cacheStore_legal h (legalName_legalize _), legalName_legalize _⟩

/-- C10, witness. -/
theorem c10_legalized_name_invariant_witness :
    reflecting.cacheLegal
      (reflecting.GetCurrentFunc [] (some (5, some "github.com/x/pkg.(*T).M".data))).2
    ∧ reflecting.legalName
      (reflecting.GetCurrentFunc [] (some (5, some "github.com/x/pkg.(*T).M".data))).1 :=
  (c10_legalized_name_invariant [] (by intro kv hkv; cases hkv)).2.1
    (some (5, some "github.com/x/pkg.(*T).M".data))

end GoUtils
